import Mathlib

/-!
A verification development for the `tlb-auto-scheduler` core: a shallow
embedding of the session / overlap / availability / cost / mutation /
solver data structures of the Rust sources, with theorems checking the
natural-language specification against the embedded code.

Conventions of the embedding:
* `SessionId` and `InstructorId` (Rust newtypes over `u16`) are embedded
  as `Nat`; all session / instructor counts in this program fit in `u16`.
* `TimeOfDay` (hour of day, `u8`, kept `< 24` by an assertion in
  `TimeOfDay::add_hr`) and `SessionDuration` are embedded as `Nat`;
  `add_hr` / `add_duration` become plain addition (the Rust assertion can
  only fire for inputs that escape the parser's `< 24` validation, and all
  concrete inputs used below stay far below 24).
* The `bit_set::BitSet` held by `OverlapMatrix` is embedded as a `List Nat`
  of inserted indices with membership lookup, which has the same
  `insert` / `contains` semantics.
* `CostCount` counters are Rust `u32` and the total cost is `u64`; counter
  increments are embedded as `Nat` addition (counts are bounded by the
  number of sessions / session pairs, far below `2^32`, for every state the
  program can build), while `total_cost` models `u64` checked
  multiplication and wrapping addition explicitly with `2 ^ 64` bounds.
-/

/-- `utils::Day`. -/
inductive Day where
  | mon | tue | wed | thu | fri
deriving DecidableEq, Repr

/-- `classes::Mode`. -/
inductive Mode where
  | f2f | online
deriving DecidableEq, Repr

/-- `session::SessionType`. -/
inductive SessionType where
  | tutLab | labAssist
deriving DecidableEq, Repr

/-- `classes::TUT_DURATION_HOURS`. -/
def TUT_DURATION_HOURS : Nat := 1

/-- `classes::LAB_DURATION_HOURS`. -/
def LAB_DURATION_HOURS : Nat := 2

/-- `session::Session` (the `class_name : Box<str>` field is embedded as a
`String`). `start_time : TimeOfDay` and `duration : SessionDuration` are
embedded as `Nat` hours. -/
structure Session where
  session_id : Nat
  day : Day
  start_time : Nat
  duration : Nat
  typ : SessionType
  mode : Mode
  class_name : String
deriving DecidableEq, Repr

/-- `session::OverlapRequirement`. -/
inductive OverlapRequirement where
  | sharp | withPadding | sameDay
deriving DecidableEq, Repr

/-- `Session::overlaps_with`, translated clause by clause.  Note the Rust
body compares against `other.start_time.add_duration(self.duration)` (the
duration of `self`, not of `other`) in its second pair of checks. -/
def Session.overlaps_with (self other : Session) (requirement : OverlapRequirement) : Bool :=
  if self.day ≠ other.day then
    false
  else if requirement = .sameDay then
    true
  else
    -- if the modes differ the requirement is replaced with WithPadding
    let requirement := if self.mode ≠ other.mode then .withPadding else requirement
    if self.start_time + self.duration < other.start_time then
      false
    else if requirement = .sharp ∧ self.start_time + self.duration ≤ other.start_time then
      false
    else if other.start_time + self.duration < self.start_time then
      false
    else if requirement = .sharp ∧ other.start_time + self.duration ≤ self.start_time then
      false
    else
      true

/-- `session::OverlapMatrix`: the `BitSet` is embedded as the list of
inserted indices. -/
structure OverlapMatrix where
  num_sessions : Nat
  overlaps : List Nat
deriving Repr

/-- `OverlapMatrix::get_overlap_index`. -/
def OverlapMatrix.get_overlap_index (num_sessions first second : Nat) : Nat :=
  first * num_sessions + second

/-- `OverlapMatrix::from_sessions`: the doubly nested loop over all ordered
pairs of sessions, skipping equal ids, inserting the overlap index whenever
`overlaps_with` holds. -/
def OverlapMatrix.from_sessions (sessions : List Session)
    (requirement : OverlapRequirement) : OverlapMatrix :=
  let num_sessions := sessions.length
  { num_sessions := num_sessions
    overlaps :=
      sessions.foldl (fun acc session_1 =>
        sessions.foldl (fun acc session_2 =>
          if session_1.session_id = session_2.session_id then
            acc
          else if session_1.overlaps_with session_2 requirement then
            OverlapMatrix.get_overlap_index num_sessions
              session_1.session_id session_2.session_id :: acc
          else
            acc) acc) [] }

/-- `OverlapMatrix::is_overlap`. -/
def OverlapMatrix.is_overlap (m : OverlapMatrix) (session_1 session_2 : Nat) : Bool :=
  m.overlaps.contains (OverlapMatrix.get_overlap_index m.num_sessions session_1 session_2)

/-- The two concrete sessions of the Sharp-overlap counterexamples: a
3-hour tut+lab block 5:00-8:00 and a 2-hour lab-assist block 7:00-9:00 on
the same day in the same mode (exactly the session shapes
`classes_to_sessions` produces, `TUT+LAB = 3` hours and `LAB = 2` hours).
Their time intervals genuinely overlap on 7:00-8:00. -/
def cexSessionA : Session :=
  { session_id := 0, day := .mon, start_time := 5, duration := 3
    typ := .tutLab, mode := .f2f, class_name := "H09A" }

def cexSessionB : Session :=
  { session_id := 1, day := .mon, start_time := 7, duration := 2
    typ := .labAssist, mode := .f2f, class_name := "T13B" }

def cexSharpMatrix : OverlapMatrix :=
  OverlapMatrix.from_sessions [cexSessionA, cexSessionB] .sharp

/-- `mutation::Mutation` (`Box`es erased). -/
inductive Mutation where
  | mult (a b : Mutation)
  | remove (session instructor : Nat)
  | add (session instructor : Nat)
  | swap (session old new : Nat)
deriving DecidableEq, Repr

/-- `evaluator::Solution`: `Box<[Option<InstructorId>]>` embedded as a list. -/
structure Solution where
  is_nontrivial : Bool
  assignment : List (Option Nat)
deriving DecidableEq, Repr

/-- `Solution::apply_mutation`.  `self.assignment[idx] = v` is embedded as
`List.set`; Rust panics when `idx` is out of bounds (so no cell changes
there), matching `List.set`'s out-of-range no-op for every cell. -/
def Solution.apply_mutation (self : Solution) (mutation : Mutation) : Solution :=
  match mutation with
  | .mult a b => (self.apply_mutation a).apply_mutation b
  | .remove session _removed => { self with assignment := self.assignment.set session none }
  | .add session instructor =>
      { self with assignment := self.assignment.set session (some instructor) }
  | .swap session _old new =>
      { self with assignment := self.assignment.set session (some new) }

/-- `Solution::reverse_mutation`. -/
def Solution.reverse_mutation (self : Solution) (mutation : Mutation) : Solution :=
  match mutation with
  | .mult a b => (self.reverse_mutation b).reverse_mutation a
  | .remove session removed =>
      { self with assignment := self.assignment.set session (some removed) }
  | .add session _added => { self with assignment := self.assignment.set session none }
  | .swap session old _new =>
      { self with assignment := self.assignment.set session (some old) }

/-- Admissibility of a mutation for a solution, as the claim states it:
`Remove`/`Swap` need the session to currently hold the recorded old
instructor, `Add` needs it to be unassigned (and in range), and for
`Mult(a,b)`, `a` must be admissible and `b` admissible after `a`. -/
def Mutation.admissible : Mutation → Solution → Bool
  | .mult a b, s => a.admissible s && b.admissible (s.apply_mutation a)
  | .remove session old, s => s.assignment.get? session = some (some old)
  | .add session _, s => s.assignment.get? session = some none
  | .swap session old _, s => s.assignment.get? session = some (some old)

/-- The session indices a mutation touches. -/
def Mutation.sessionsOf : Mutation → List Nat
  | .mult a b => a.sessionsOf ++ b.sessionsOf
  | .remove session _ => [session]
  | .add session _ => [session]
  | .swap session _ _ => [session]

theorem list_set_cancel {α : Type} {l : List α} {i : Nat} {v : α}
    (h : l.get? i = some v) : l.set i v = l := by
  rw [List.get?_eq_getElem?] at h
  apply List.ext_getElem?
  intro n
  rcases eq_or_ne i n with rfl | hn
  · rw [List.getElem?_set_self', h]
    rfl
  · simp [List.getElem?_set_ne hn]

/-- C1: the claim says the Sharp matrix reports `is_overlap a b = true` iff
`a.start < b.start + b.duration ∧ b.start < a.start + a.duration`.  On the
concrete pair `a = cexSessionB = [7,9)`, `b = cexSessionA = [5,8)` (same
day, same mode, distinct ids, intervals overlapping on `[7,8)`) both strict
inequalities hold yet the matrix built by `from_sessions` reports no
overlap: `overlaps_with` compares `other.start_time + self.duration`
(`5 + 2 = 7 ≤ 7`) where its own comment "other ends before self" calls for
`other.duration`. -/
theorem C1_sharp_uses_wrong_duration :
    cexSessionB.start_time < cexSessionA.start_time + cexSessionA.duration ∧
    cexSessionA.start_time < cexSessionB.start_time + cexSessionB.duration ∧
    cexSessionA.day = cexSessionB.day ∧
    cexSessionA.mode = cexSessionB.mode ∧
    cexSessionA.session_id ≠ cexSessionB.session_id ∧
    cexSharpMatrix.is_overlap cexSessionB.session_id cexSessionA.session_id = false := by
  decide

/-- C2: the claim says all three overlap matrices are symmetric.  The Sharp
matrix on `[cexSessionA, cexSessionB]` has `is_overlap 0 1 = true` but
`is_overlap 1 0 = false` (same `self.duration`-for-`other.duration` slip as
C1, which breaks the symmetry of `overlaps_with` between sessions of
unequal duration). -/
theorem C2_sharp_matrix_asymmetric :
    cexSharpMatrix.is_overlap cexSessionA.session_id cexSessionB.session_id = true ∧
    cexSharpMatrix.is_overlap cexSessionB.session_id cexSessionA.session_id = false := by
  decide

/-- C3: for every mutation admissible for a solution, applying it and then
reversing it restores the solution exactly. -/
theorem C3_apply_then_reverse_restores (m : Mutation) :
    ∀ s : Solution, m.admissible s = true →
      (s.apply_mutation m).reverse_mutation m = s := by
  induction m with
  | mult a b iha ihb =>
      intro s h
      rw [Mutation.admissible, Bool.and_eq_true] at h
      show (((s.apply_mutation a).apply_mutation b).reverse_mutation b).reverse_mutation a = s
      rw [ihb _ h.2, iha _ h.1]
  | remove session old =>
      intro s h
      rw [Mutation.admissible, decide_eq_true_eq] at h
      cases s with
      | mk nt asg =>
          simp only [Solution.apply_mutation, Solution.reverse_mutation, List.set_set]
          exact congrArg (Solution.mk nt) (list_set_cancel h)
  | add session instructor =>
      intro s h
      rw [Mutation.admissible, decide_eq_true_eq] at h
      cases s with
      | mk nt asg =>
          simp only [Solution.apply_mutation, Solution.reverse_mutation, List.set_set]
          exact congrArg (Solution.mk nt) (list_set_cancel h)
  | swap session old new =>
      intro s h
      rw [Mutation.admissible, decide_eq_true_eq] at h
      cases s with
      | mk nt asg =>
          simp only [Solution.apply_mutation, Solution.reverse_mutation, List.set_set]
          exact congrArg (Solution.mk nt) (list_set_cancel h)

/-- Witness for C3 at a concrete admissible mutation: a `Mult` of a `Swap`
and an `Add` on a two-session solution. -/
theorem C3_concrete_roundtrip :
    (Mutation.mult (.swap 0 0 1) (.add 1 0)).admissible ⟨true, [some 0, none]⟩ = true ∧
    ((⟨true, [some 0, none]⟩ : Solution).apply_mutation
        (Mutation.mult (.swap 0 0 1) (.add 1 0))).reverse_mutation
        (Mutation.mult (.swap 0 0 1) (.add 1 0)) = ⟨true, [some 0, none]⟩ :=
  ⟨by decide, C3_apply_then_reverse_restores _ _ (by decide)⟩

/-- C10: `apply_mutation` and `reverse_mutation` leave the `is_nontrivial`
flag and the assignment length unchanged, and change no assignment cell
whose index does not occur in the mutation. -/
theorem C10_mutation_touches_only_its_sessions (m : Mutation) :
    ∀ s : Solution,
      (s.apply_mutation m).is_nontrivial = s.is_nontrivial ∧
      (s.apply_mutation m).assignment.length = s.assignment.length ∧
      (s.reverse_mutation m).is_nontrivial = s.is_nontrivial ∧
      (s.reverse_mutation m).assignment.length = s.assignment.length ∧
      ∀ i : Nat, i ∉ m.sessionsOf →
        (s.apply_mutation m).assignment.get? i = s.assignment.get? i ∧
        (s.reverse_mutation m).assignment.get? i = s.assignment.get? i := by
  induction m with
  | mult a b iha ihb =>
      intro s
      refine ⟨?_, ?_, ?_, ?_, ?_⟩
      · show ((s.apply_mutation a).apply_mutation b).is_nontrivial = _
        rw [(ihb _).1, (iha s).1]
      · show ((s.apply_mutation a).apply_mutation b).assignment.length = _
        rw [(ihb _).2.1, (iha s).2.1]
      · show ((s.reverse_mutation b).reverse_mutation a).is_nontrivial = _
        rw [(iha _).2.2.1, (ihb s).2.2.1]
      · show ((s.reverse_mutation b).reverse_mutation a).assignment.length = _
        rw [(iha _).2.2.2.1, (ihb s).2.2.2.1]
      · intro i hi
        rw [Mutation.sessionsOf, List.mem_append] at hi
        push_neg at hi
        constructor
        · show ((s.apply_mutation a).apply_mutation b).assignment.get? i = _
          rw [((ihb _).2.2.2.2 i hi.2).1, ((iha s).2.2.2.2 i hi.1).1]
        · show ((s.reverse_mutation b).reverse_mutation a).assignment.get? i = _
          rw [((iha _).2.2.2.2 i hi.1).2, ((ihb s).2.2.2.2 i hi.2).2]
  | remove session old =>
      intro s
      refine ⟨rfl, List.length_set .., rfl, List.length_set .., ?_⟩
      intro i hi
      rw [Mutation.sessionsOf, List.mem_singleton] at hi
      constructor <;>
        · show (s.assignment.set session _).get? i = _
          rw [List.get?_eq_getElem?, List.get?_eq_getElem?,
            List.getElem?_set_ne (fun h => hi h.symm)]
  | add session instructor =>
      intro s
      refine ⟨rfl, List.length_set .., rfl, List.length_set .., ?_⟩
      intro i hi
      rw [Mutation.sessionsOf, List.mem_singleton] at hi
      constructor <;>
        · show (s.assignment.set session _).get? i = _
          rw [List.get?_eq_getElem?, List.get?_eq_getElem?,
            List.getElem?_set_ne (fun h => hi h.symm)]
  | swap session old new =>
      intro s
      refine ⟨rfl, List.length_set .., rfl, List.length_set .., ?_⟩
      intro i hi
      rw [Mutation.sessionsOf, List.mem_singleton] at hi
      constructor <;>
        · show (s.assignment.set session _).get? i = _
          rw [List.get?_eq_getElem?, List.get?_eq_getElem?,
            List.getElem?_set_ne (fun h => hi h.symm)]

/-- Witness for C10 at a concrete mutation and solution: cell 2 of a
three-cell solution is untouched by a `Remove` at session 1. -/
theorem C10_concrete_frame :
    ((⟨false, [some 5, none, some 2]⟩ : Solution).apply_mutation
        (.remove 1 7)).assignment.get? 2 =
      (⟨false, [some 5, none, some 2]⟩ : Solution).assignment.get? 2 ∧
    ((⟨false, [some 5, none, some 2]⟩ : Solution).reverse_mutation
        (.remove 1 7)).assignment.get? 2 =
      (⟨false, [some 5, none, some 2]⟩ : Solution).assignment.get? 2 :=
  (C10_mutation_touches_only_its_sessions (.remove 1 7)
    ⟨false, [some 5, none, some 2]⟩).2.2.2.2 2 (by decide)

/-- `costs::Constraint`, in the Rust enum's declaration order. -/
inductive Constraint where
  | assignedPreferred
  | assignedPossible
  | assignedDislike
  | assignedImpossible
  | unassignedSession
  | belowMinTut
  | belowMinLab
  | belowMinClass
  | aboveMaxTut
  | aboveMaxLab
  | aboveMaxClass
  | directOverlap
  | paddedOverlap
  | sameDayOverlap
  | mismatchedInitialSolution
deriving DecidableEq, Repr, Fintype

/-- The iteration order of `EnumMap<Constraint, _>`: declaration order. -/
def Constraint.all : List Constraint :=
  [.assignedPreferred, .assignedPossible, .assignedDislike, .assignedImpossible,
   .unassignedSession, .belowMinTut, .belowMinLab, .belowMinClass,
   .aboveMaxTut, .aboveMaxLab, .aboveMaxClass, .directOverlap,
   .paddedOverlap, .sameDayOverlap, .mismatchedInitialSolution]

theorem Constraint.mem_all (c : Constraint) : c ∈ Constraint.all := by
  cases c <;> decide

/-- `costs::CostPossibility` (`CostValue = u64` embedded as `Nat`). -/
inductive CostPossibility where
  | infinity
  | value (val : Nat)
deriving DecidableEq, Repr

/-- `costs::CostConfig`: the `EnumMap` embedded as a function. -/
structure CostConfig where
  map : Constraint → CostPossibility

/-- `costs::CostCount`: the `EnumMap<Constraint, u32>` of running counts,
embedded as a function to `Nat`. -/
structure CostCount where
  counts : Constraint → Nat

/-- `u64::checked_mul` on values below `2 ^ 64`. -/
def checkedMulU64 (a b : Nat) : Option Nat :=
  if a * b < 2 ^ 64 then some (a * b) else none

/-- `Iterator::sum::<Option<u64>>`: `none` as soon as any element is
`none`, otherwise the running `u64` sum.  The `u64` additions themselves
are unchecked in Rust (wrapping in release builds, embedded here as
`% 2 ^ 64`; a debug build would panic instead of wrapping). -/
def optionSumU64 : List (Option Nat) → Option Nat
  | [] => some 0
  | none :: _ => none
  | some v :: rest => (optionSumU64 rest).map (fun s => (v + s) % 2 ^ 64)

/-- One element of the iterator inside `CostCount::total_cost`: a
finite-weight constraint contributes `count.checked_mul(weight)`, an
∞-weight constraint contributes `none` when its count is positive and
`some 0` otherwise. -/
def CostCount.cost_term (self : CostCount) (config : CostConfig)
    (constraint : Constraint) : Option Nat :=
  match config.map constraint with
  | .value val => checkedMulU64 (self.counts constraint) val
  | .infinity => if 0 < self.counts constraint then none else some 0

/-- `CostCount::total_cost`. -/
def CostCount.total_cost (self : CostCount) (config : CostConfig) : Option Nat :=
  optionSumU64 (Constraint.all.map (self.cost_term config))

/-- The exact mathematical sum `Σ count·weight` over the finite-weight
constraints, as the specification describes the total. -/
def CostCount.weight_term (self : CostCount) (config : CostConfig)
    (constraint : Constraint) : Nat :=
  match config.map constraint with
  | .value val => self.counts constraint * val
  | .infinity => 0

def CostCount.finite_weight_sum (self : CostCount) (config : CostConfig) : Nat :=
  (Constraint.all.map (self.weight_term config)).sum

theorem cost_term_eq_none_iff (cc : CostCount) (cfg : CostConfig) (c : Constraint) :
    cc.cost_term cfg c = none ↔
      (cfg.map c = .infinity ∧ 0 < cc.counts c) ∨
      (∃ v, cfg.map c = .value v ∧ 2 ^ 64 ≤ cc.counts c * v) := by
  unfold CostCount.cost_term checkedMulU64
  cases h : cfg.map c with
  | infinity =>
      by_cases hc : 0 < cc.counts c <;> simp [hc]
  | value val =>
      by_cases hlt : cc.counts c * val < 2 ^ 64 <;> simp [hlt] <;> omega

theorem cost_term_eq_some_imp (cc : CostCount) (cfg : CostConfig) (c : Constraint)
    (x : Nat) (h : cc.cost_term cfg c = some x) : x = cc.weight_term cfg c := by
  unfold CostCount.cost_term checkedMulU64 at h
  cases hm : cfg.map c with
  | infinity =>
      simp only [hm] at h
      simp only [CostCount.weight_term, hm]
      split at h
      · simp at h
      · exact (Option.some_inj.mp h).symm
  | value val =>
      simp only [hm] at h
      simp only [CostCount.weight_term, hm]
      split at h
      · exact (Option.some_inj.mp h).symm
      · simp at h

theorem optionSum_cost_terms (cc : CostCount) (cfg : CostConfig) (l : List Constraint) :
    (optionSumU64 (l.map (cc.cost_term cfg)) = none ↔
      ∃ c ∈ l, cc.cost_term cfg c = none) ∧
    (∀ t, optionSumU64 (l.map (cc.cost_term cfg)) = some t →
      t = (l.map (cc.weight_term cfg)).sum % 2 ^ 64) := by
  induction l with
  | nil =>
      refine ⟨by simp [optionSumU64], fun t ht => ?_⟩
      simp [optionSumU64] at ht
      simp [← ht]
  | cons c l ih =>
      rw [List.map_cons, List.map_cons]
      cases h : cc.cost_term cfg c with
      | none =>
          refine ⟨iff_of_true rfl ⟨c, List.mem_cons_self c l, h⟩, fun t ht => ?_⟩
          simp [optionSumU64] at ht
      | some v =>
          have hv : v = cc.weight_term cfg c := cost_term_eq_some_imp cc cfg c v h
          have hstep : optionSumU64 (some v :: l.map (cc.cost_term cfg)) =
              (optionSumU64 (l.map (cc.cost_term cfg))).map (fun s => (v + s) % 2 ^ 64) := by
            simp only [optionSumU64]
          rw [hstep]
          cases hrest : optionSumU64 (l.map (cc.cost_term cfg)) with
          | none =>
              obtain ⟨c₂, hc₂, hterm⟩ := ih.1.mp hrest
              refine ⟨iff_of_true rfl ⟨c₂, List.mem_cons_of_mem c hc₂, hterm⟩, fun t ht => ?_⟩
              simp at ht
          | some s =>
              have hs : s = (l.map (cc.weight_term cfg)).sum % 2 ^ 64 := ih.2 s hrest
              constructor
              · rw [Option.map_some']
                constructor
                · intro hcontra
                  cases hcontra
                · rintro ⟨c₂, hc₂, hterm⟩
                  rcases List.mem_cons.mp hc₂ with rfl | hmem
                  · rw [h] at hterm
                    cases hterm
                  · have hcon : optionSumU64 (l.map (cc.cost_term cfg)) = none :=
                      ih.1.mpr ⟨c₂, hmem, hterm⟩
                    rw [hcon] at hrest
                    cases hrest
              · intro t ht
                rw [Option.map_some', Option.some_inj] at ht
                rw [← ht, hv, hs, List.sum_cons, Nat.add_mod_mod]

/-- C4 (amended): `total_cost` is "no value" iff some ∞-weighted
constraint has a positive count or some single product `count·weight`
overflows `u64` (the code's `checked_mul`); otherwise it returns the sum
`Σ count·weight` reduced modulo `2 ^ 64` — overflow of the additions is
NOT detected, the sum wraps. -/
theorem C4_total_cost_amended (cc : CostCount) (cfg : CostConfig) :
    (cc.total_cost cfg = none ↔
      (∃ c, cfg.map c = .infinity ∧ 0 < cc.counts c) ∨
      (∃ c v, cfg.map c = .value v ∧ 2 ^ 64 ≤ cc.counts c * v)) ∧
    (∀ t, cc.total_cost cfg = some t → t = cc.finite_weight_sum cfg % 2 ^ 64) := by
  constructor
  · rw [CostCount.total_cost, (optionSum_cost_terms cc cfg Constraint.all).1]
    constructor
    · rintro ⟨c, -, hterm⟩
      rcases (cost_term_eq_none_iff cc cfg c).mp hterm with hinf | ⟨v, hval, hge⟩
      · exact Or.inl ⟨c, hinf⟩
      · exact Or.inr ⟨c, v, hval, hge⟩
    · rintro (⟨c, hinf⟩ | ⟨c, v, hval, hge⟩)
      · exact ⟨c, Constraint.mem_all c, (cost_term_eq_none_iff cc cfg c).mpr (Or.inl hinf)⟩
      · exact ⟨c, Constraint.mem_all c,
          (cost_term_eq_none_iff cc cfg c).mpr (Or.inr ⟨v, hval, hge⟩)⟩
  · exact (optionSum_cost_terms cc cfg Constraint.all).2

/-- The concrete input refuting C4 as stated: two finite weights of
`2 ^ 63` with count 1 each.  No product overflows, so no `checked_mul`
fires, but the `u64` sum is exactly `2 ^ 64` and wraps to 0. -/
def cexOverflowCount : CostCount :=
  ⟨fun c => match c with
    | .assignedPreferred => 1
    | .assignedPossible => 1
    | _ => 0⟩

def cexOverflowConfig : CostConfig :=
  ⟨fun c => match c with
    | .assignedPreferred => .value (2 ^ 63)
    | .assignedPossible => .value (2 ^ 63)
    | _ => .value 0⟩

/-- C4 as stated is false: on `cexOverflowCount` / `cexOverflowConfig`
no weight is ∞ and the mathematical sum `Σ count·weight = 2 ^ 64`
overflows `u64`, yet `total_cost` returns `some 0` rather than "no
value". -/
theorem C4_sum_overflow_not_detected :
    cexOverflowCount.total_cost cexOverflowConfig = some 0 ∧
    (∀ c : Constraint, cexOverflowConfig.map c ≠ .infinity) ∧
    2 ^ 64 ≤ cexOverflowCount.finite_weight_sum cexOverflowConfig := by
  refine ⟨by decide, fun c => by cases c <;> decide, by decide⟩

/-- Witness for the amended C4 on the same concrete input: the returned
value is the wrapped sum. -/
theorem C4_amended_wrapped_value :
    (0 : Nat) = cexOverflowCount.finite_weight_sum cexOverflowConfig % 2 ^ 64 :=
  (C4_total_cost_amended cexOverflowCount cexOverflowConfig).2 0 (by decide)

/-- `solver::SolverSeed`. -/
structure SolverSeed where
  num_rounds : Nat
  rng_seed : Nat
deriving DecidableEq, Repr

/-- `solver::SolverOutput` (`final_cost : Option<u64>` embedded as
`Option Nat`). -/
structure SolverOutput where
  seed : SolverSeed
  final_cost : Option Nat
  log : String
  solution : Solution

/-- `SolverOutput::better_than`: the `other : Option<&SolverOutput>`
argument and the `other.and_then(|output| output.final_cost)` projection. -/
def SolverOutput.better_than (self : SolverOutput) (other : Option SolverOutput) : Bool :=
  match self.final_cost, other.bind (fun output => output.final_cost) with
  | none, none => false
  | none, some _ => false
  | some _, none => true
  | some new, some old => new < old

/-- C5: `better_than` is the lexicographic comparison on final costs: a
finite cost beats an ∞ (`none`) current best (or an absent one), among
finite costs strictly-smaller wins (so an equal cost is not better), and an
∞ result is never better than anything. -/
theorem C5_better_than_lexicographic (self other : SolverOutput) :
    (∀ n : Nat, self.final_cost = some n → other.final_cost = none →
      self.better_than (some other) = true) ∧
    (∀ n : Nat, self.final_cost = some n → self.better_than none = true) ∧
    (∀ n o : Nat, self.final_cost = some n → other.final_cost = some o →
      (self.better_than (some other) = true ↔ n < o)) ∧
    (self.final_cost = none → ∀ x : Option SolverOutput, self.better_than x = false) := by
  refine ⟨fun n hs ho => ?_, fun n hs => ?_, fun n o hs ho => ?_, fun hs x => ?_⟩
  · simp [SolverOutput.better_than, hs, ho]
  · simp [SolverOutput.better_than, hs]
  · simp [SolverOutput.better_than, hs, ho]
  · cases x with
    | none => simp [SolverOutput.better_than, hs]
    | some o =>
        cases ho : o.final_cost <;> simp [SolverOutput.better_than, hs, ho]

/-- Witness for C5 on concrete outputs: cost 3 beats cost 4. -/
theorem C5_concrete_comparison :
    let a : SolverOutput := ⟨⟨10, 0⟩, some 3, "", ⟨false, []⟩⟩
    let b : SolverOutput := ⟨⟨10, 1⟩, some 4, "", ⟨false, []⟩⟩
    a.better_than (some b) = true ↔ (3 : Nat) < 4 :=
  (C5_better_than_lexicographic ⟨⟨10, 0⟩, some 3, "", ⟨false, []⟩⟩
    ⟨⟨10, 1⟩, some 4, "", ⟨false, []⟩⟩).2.2.1 3 4 rfl rfl

/-- `talloc::Availability`; the Rust `derive(Ord)` order is declaration
order: Impossible < Dislike < Possible < Preferred. -/
inductive Availability where
  | impossible | dislike | possible | preferred
deriving DecidableEq, Repr

/-- The ordinal of an `Availability` under the derived `Ord`. -/
def Availability.toNat : Availability → Nat
  | .impossible => 0
  | .dislike => 1
  | .possible => 2
  | .preferred => 3

/-- `Ord::min` on two `Availability` values (smaller ordinal wins). -/
def Availability.minA (a b : Availability) : Availability :=
  if a.toNat ≤ b.toNat then a else b

/-- `Ord::min` on `Option<Availability>`: Rust orders `None` below any
`Some`. -/
def optMinA (a b : Option Availability) : Option Availability :=
  match a, b with
  | none, _ => none
  | _, none => none
  | some x, some y => some (x.minA y)

/-- `Iterator::min` over a list of `Option<Availability>`: `none` on an
empty iterator, otherwise the fold of the pairwise minimum. -/
def iterMinA : List (Option Availability) → Option (Option Availability)
  | [] => none
  | x :: xs => some (xs.foldl optMinA x)

/-- `talloc::TallocApplication`, abstracted to the observable behaviour of
its `get_availability` method (the JSON-field parsing behind it is an
external-interface detail outside the solver core): a lookup from
(day, hour, mode) to an optional availability, `none` when the hour key is
missing or malformed. -/
structure TallocApplication where
  get_availability : Day → Nat → Mode → Option Availability

/-- `availabilities::check_availability`: probe every hour the session
spans and take the `Iterator::min`, then `flatten`. -/
def check_availability (application : TallocApplication) (session : Session) :
    Option Availability :=
  (iterMinA ((List.range session.duration).map (fun hour_offset =>
    application.get_availability session.day
      (session.start_time + hour_offset) session.mode))).join

/-- `instructor::ClassTypeRequirement` (six `u8` bounds). -/
structure ClassTypeRequirement where
  min_tutes : Nat
  max_tutes : Nat
  min_lab_assists : Nat
  max_lab_assists : Nat
  min_total_classes : Nat
  max_total_classes : Nat
deriving DecidableEq, Repr

/-- `instructor::TutorSeniority`. -/
structure TutorSeniority where
  is_senior_tutor : Bool
  is_new_tutor : Bool
deriving DecidableEq, Repr

/-- `instructor::Instructor`. -/
structure Instructor where
  instructor_id : Nat
  name : String
  zid : String
  class_type_requirement : ClassTypeRequirement
  seniority : Option TutorSeniority
deriving DecidableEq, Repr

/-- `availabilities::AvailabilityMatrix`. -/
structure AvailabilityMatrix where
  num_instructors : Nat
  availability_session_x_instructor : List Availability
deriving DecidableEq, Repr

/-- `collect::<Result<_>>` over a fallible map: stop at the first failure. -/
def listMapM {α β : Type} (f : α → Option β) : List α → Option (List β)
  | [] => some []
  | x :: xs =>
      match f x, listMapM f xs with
      | some y, some ys => some (y :: ys)
      | _, _ => none

/-- `AvailabilityMatrix::build`: the session-major double loop pushing
`check_availability` results into one flat vector; a missing application
(`TallocApps::get_application` returning `None`) or a failed check makes
the whole build fail. -/
def AvailabilityMatrix.build (instructors : List Instructor) (sessions : List Session)
    (applications : String → Option TallocApplication) : Option AvailabilityMatrix :=
  (listMapM (fun session =>
      listMapM (fun instructor =>
        (applications instructor.zid).bind (fun application =>
          check_availability application session)) instructors) sessions).map
    (fun rows =>
      { num_instructors := instructors.length
        availability_session_x_instructor := rows.flatten })

/-- `AvailabilityMatrix::get_availability` (Rust indexes the flat vector,
panicking out of bounds; every use below is in bounds). -/
def AvailabilityMatrix.get_availability (self : AvailabilityMatrix)
    (session instructor : Nat) : Availability :=
  self.availability_session_x_instructor.getD
    (session * self.num_instructors + instructor) .impossible

theorem minA_toNat_le_left (a b : Availability) : (a.minA b).toNat ≤ a.toNat := by
  unfold Availability.minA
  split <;> omega

theorem minA_toNat_le_right (a b : Availability) : (a.minA b).toNat ≤ b.toNat := by
  unfold Availability.minA
  split <;> omega

theorem minA_eq_or (a b : Availability) : a.minA b = a ∨ a.minA b = b := by
  unfold Availability.minA
  split
  · exact Or.inl rfl
  · exact Or.inr rfl

theorem foldl_optMinA_some (os : List (Option Availability)) :
    ∀ (o : Option Availability) (v : Availability),
      os.foldl optMinA o = some v →
      ∃ vals : List Availability, o :: os = vals.map some ∧ v ∈ vals ∧
        ∀ a ∈ vals, v.toNat ≤ a.toNat := by
  induction os with
  | nil =>
      intro o v h
      rw [List.foldl_nil] at h
      exact ⟨[v], by simp [h], by simp, by simp⟩
  | cons o₂ os ih =>
      intro o v h
      rw [List.foldl_cons] at h
      obtain ⟨vals', heq, hmem, hmin⟩ := ih (optMinA o o₂) v h
      cases vals' with
      | nil => simp at heq
      | cons m tail =>
          rw [List.map_cons] at heq
          injection heq with h₁ h₂
          cases o with
          | none => simp [optMinA] at h₁
          | some x =>
              cases o₂ with
              | none => simp [optMinA] at h₁
              | some y =>
                  simp only [optMinA, Option.some_inj] at h₁
                  refine ⟨x :: y :: tail, by simp [h₂], ?_, ?_⟩
                  · rcases List.mem_cons.mp hmem with rfl | htail
                    · rcases minA_eq_or x y with hx | hy
                      · rw [← h₁, hx]
                        exact List.mem_cons_self _ _
                      · rw [← h₁, hy]
                        exact List.mem_cons_of_mem _ (List.mem_cons_self _ _)
                    · exact List.mem_cons_of_mem _ (List.mem_cons_of_mem _ htail)
                  · have hvm : v.toNat ≤ m.toNat := hmin m (List.mem_cons_self _ _)
                    intro a ha
                    rcases List.mem_cons.mp ha with rfl | ha
                    · exact le_trans hvm (h₁ ▸ minA_toNat_le_left a y)
                    · rcases List.mem_cons.mp ha with rfl | ha
                      · exact le_trans hvm (h₁ ▸ minA_toNat_le_right x a)
                      · exact hmin a (List.mem_cons_of_mem _ ha)

theorem check_availability_some (app : TallocApplication) (s : Session) (v : Availability)
    (h : check_availability app s = some v) :
    ∃ vals : List Availability,
      (List.range s.duration).map (fun hour_offset =>
        app.get_availability s.day (s.start_time + hour_offset) s.mode) = vals.map some ∧
      v ∈ vals ∧ ∀ a ∈ vals, v.toNat ≤ a.toNat := by
  unfold check_availability at h
  cases hl : (List.range s.duration).map (fun hour_offset =>
      app.get_availability s.day (s.start_time + hour_offset) s.mode) with
  | nil =>
      rw [hl] at h
      simp [iterMinA] at h
  | cons o os =>
      rw [hl] at h
      simp only [iterMinA, Option.join] at h
      obtain ⟨vals, heq, hmem, hmin⟩ := foldl_optMinA_some os o v h
      exact ⟨vals, hl ▸ heq, hmem, hmin⟩

theorem listMapM_getElem? {α β : Type} (f : α → Option β) :
    ∀ (l : List α) (r : List β), listMapM f l = some r →
      ∀ k : Nat, r[k]? = l[k]?.bind f := by
  intro l
  induction l with
  | nil =>
      intro r h k
      simp only [listMapM, Option.some_inj] at h
      subst h
      simp
  | cons x xs ih =>
      intro r h k
      simp only [listMapM] at h
      cases hx : f x with
      | none => rw [hx] at h; cases h
      | some y =>
          rw [hx] at h
          cases hrec : listMapM f xs with
          | none => rw [hrec] at h; cases h
          | some ys =>
              rw [hrec] at h
              rw [Option.some_inj] at h
              subst h
              cases k with
              | zero => simp [hx]
              | succ k => simpa using ih ys hrec k

theorem listMapM_length {α β : Type} (f : α → Option β) :
    ∀ (l : List α) (r : List β), listMapM f l = some r → r.length = l.length := by
  intro l
  induction l with
  | nil =>
      intro r h
      simp only [listMapM, Option.some_inj] at h
      subst h
      rfl
  | cons x xs ih =>
      intro r h
      simp only [listMapM] at h
      cases hx : f x with
      | none => rw [hx] at h; cases h
      | some y =>
          rw [hx] at h
          cases hrec : listMapM f xs with
          | none => rw [hrec] at h; cases h
          | some ys =>
              rw [hrec] at h
              rw [Option.some_inj] at h
              subst h
              simp [ih ys hrec]

theorem flatten_getElem? {α : Type} (n : Nat) :
    ∀ (rows : List (List α)), (∀ row ∈ rows, row.length = n) →
      ∀ (k j : Nat), j < n →
        rows.flatten[k * n + j]? = rows[k]?.bind (fun row => row[j]?) := by
  intro rows
  induction rows with
  | nil => intro _ k j _; simp
  | cons r rs ih =>
      intro hall k j hj
      have hr : r.length = n := hall r (List.mem_cons_self _ _)
      rw [List.flatten_cons]
      cases k with
      | zero =>
          rw [Nat.zero_mul, Nat.zero_add, List.getElem?_append]
          rw [if_pos (by omega)]
          simp
      | succ k =>
          have hidx : (k + 1) * n + j = r.length + (k * n + j) := by
            rw [hr]; ring
          rw [hidx, List.getElem?_append_right (Nat.le_add_right _ _), Nat.add_sub_cancel_left]
          have := ih (fun row hrow => hall row (List.mem_cons_of_mem _ hrow)) k j hj
          simpa using this

/-- C7: whenever `AvailabilityMatrix::build` succeeds, every
`(session, instructor)` entry of the matrix is the minimum, over the hour
offsets `0 .. duration-1` of the session, of the instructor's hourly
availability under the session's mode (in particular every probed hour is
defined). -/
theorem C7_get_availability_is_min_over_hours
    (instructors : List Instructor) (sessions : List Session)
    (applications : String → Option TallocApplication) (M : AvailabilityMatrix)
    (hbuild : AvailabilityMatrix.build instructors sessions applications = some M)
    (sid iid : Nat) (hs : sid < sessions.length) (hi : iid < instructors.length) :
    ∃ (session : Session) (instructor : Instructor) (app : TallocApplication)
      (vals : List Availability),
      sessions[sid]? = some session ∧ instructors[iid]? = some instructor ∧
      applications instructor.zid = some app ∧
      (List.range session.duration).map (fun hour_offset =>
        app.get_availability session.day (session.start_time + hour_offset) session.mode) =
        vals.map some ∧
      M.get_availability sid iid ∈ vals ∧
      ∀ a ∈ vals, (M.get_availability sid iid).toNat ≤ a.toNat := by
  unfold AvailabilityMatrix.build at hbuild
  rw [Option.map_eq_some'] at hbuild
  obtain ⟨rows, hrows, hM⟩ := hbuild
  have hlen : rows.length = sessions.length := listMapM_length _ sessions rows hrows
  have hs2 : sid < rows.length := by omega
  have hsession : sessions[sid]? = some sessions[sid] := List.getElem?_eq_getElem hs
  have hrowq := listMapM_getElem? _ sessions rows hrows sid
  have hrowsome : rows[sid]? = some rows[sid] := List.getElem?_eq_getElem hs2
  rw [hrowsome, hsession, Option.some_bind] at hrowq
  -- the row for this session is itself a successful inner listMapM
  have hinner : listMapM (fun instructor =>
      (applications instructor.zid).bind (fun application =>
        check_availability application sessions[sid])) instructors =
      some rows[sid] := hrowq.symm
  have hrlen : rows[sid].length = instructors.length :=
    listMapM_length _ instructors _ hinner
  have hi2 : iid < rows[sid].length := by omega
  have hinstructor : instructors[iid]? = some instructors[iid] :=
    List.getElem?_eq_getElem hi
  have hcellq := listMapM_getElem? _ instructors rows[sid] hinner iid
  have hcellsome : rows[sid][iid]? = some rows[sid][iid] :=
    List.getElem?_eq_getElem hi2
  rw [hcellsome, hinstructor, Option.some_bind] at hcellq
  obtain ⟨app, happ, hcheck⟩ := Option.bind_eq_some.mp hcellq.symm
  -- every row has one entry per instructor
  have hall : ∀ row ∈ rows, row.length = instructors.length := by
    intro row hrow
    obtain ⟨k, hk⟩ := List.mem_iff_getElem?.mp hrow
    have hq := listMapM_getElem? _ sessions rows hrows k
    rw [hk] at hq
    cases hsk : sessions[k]? with
    | none => rw [hsk] at hq; cases hq
    | some sk =>
        rw [hsk, Option.some_bind] at hq
        exact listMapM_length _ instructors row hq.symm
  -- the matrix cell is exactly the successful check for this pair
  have hflat : rows.flatten[sid * instructors.length + iid]? = some rows[sid][iid] := by
    rw [flatten_getElem? instructors.length rows hall sid iid hi, hrowsome,
      Option.some_bind, hcellsome]
  have hget : M.get_availability sid iid = rows[sid][iid] := by
    rw [← hM]
    unfold AvailabilityMatrix.get_availability
    simp only
    rw [List.getD_eq_getElem?_getD, hflat]
    rfl
  obtain ⟨vals, hvals, hmem, hmin⟩ :=
    check_availability_some app sessions[sid] _ hcheck
  exact ⟨sessions[sid], instructors[iid], app, vals, hsession, hinstructor,
    happ, hvals, hget ▸ hmem, hget ▸ hmin⟩

/-- A concrete application for the C7 witness: Possible at hour 9,
Preferred everywhere else. -/
def cexApp : TallocApplication :=
  ⟨fun _ hour _ => if hour = 9 then some .possible else some .preferred⟩

def cexInstructor : Instructor :=
  { instructor_id := 0, name := "Alice", zid := "z1234567"
    class_type_requirement :=
      { min_tutes := 0, max_tutes := 1, min_lab_assists := 0, max_lab_assists := 1
        min_total_classes := 0, max_total_classes := 2 }
    seniority := none }

def cexBuildSession : Session :=
  { session_id := 0, day := .tue, start_time := 9, duration := 2
    typ := .tutLab, mode := .f2f, class_name := "W11A" }

def cexApps : String → Option TallocApplication :=
  fun zid => if zid = "z1234567" then some cexApp else none

/-- Witness for C7: building the 1×1 matrix for a 2-hour session probed at
hours 9 (Possible) and 10 (Preferred) succeeds and stores the minimum,
Possible. -/
theorem C7_concrete_build_min :
    ∃ (session : Session) (instructor : Instructor) (app : TallocApplication)
      (vals : List Availability),
      [cexBuildSession][0]? = some session ∧ [cexInstructor][0]? = some instructor ∧
      cexApps instructor.zid = some app ∧
      (List.range session.duration).map (fun hour_offset =>
        app.get_availability session.day (session.start_time + hour_offset) session.mode) =
        vals.map some ∧
      (AvailabilityMatrix.get_availability ⟨1, [.possible]⟩ 0 0) ∈ vals ∧
      ∀ a ∈ vals, (AvailabilityMatrix.get_availability ⟨1, [.possible]⟩ 0 0).toNat ≤ a.toNat :=
  C7_get_availability_is_min_over_hours [cexInstructor] [cexBuildSession] cexApps
    ⟨1, [.possible]⟩ (by decide) 0 0 (by decide) (by decide)

/-- `CostCount::new` (an `EnumMap` of zeroes). -/
def CostCount.new : CostCount := ⟨fun _ => 0⟩

/-- `CostCount::add_cost`. -/
def CostCount.add_cost (self : CostCount) (category : Constraint) (count : Nat) : CostCount :=
  ⟨fun c => if c = category then self.counts c + count else self.counts c⟩

/-- `CostCount::add_cost_1`. -/
def CostCount.add_cost_1 (self : CostCount) (category : Constraint) : CostCount :=
  self.add_cost category 1

/-- `CostConfig::should_count`. -/
def CostConfig.should_count (self : CostConfig) (constraint : Constraint) : Bool :=
  match self.map constraint with
  | .infinity => true
  | .value val => val ≠ 0

/-- `evaluator::Problem` (the `&'a` borrows erased). -/
structure Problem where
  sessions : List Session
  instructors : List Instructor
  availabilities : AvailabilityMatrix
  overlap_sharp : OverlapMatrix
  overlap_padded : OverlapMatrix
  overlap_same_day : OverlapMatrix
  cost_config : CostConfig
  initial_solution : Solution

/-- `evaluator::EvalBuffer`. -/
structure EvalBuffer where
  instructor_allocations : List (List Nat)

/-- `utils::TwoCombIter` as the list of pairs it yields: starting from
`(inner, outer) = (0, 1)` it yields `(slice[inner], slice[outer])` for
`outer` in `1 .. len` and `inner` in `0 ..= outer` — note the iterator also
yields the diagonal pairs `(slice[k], slice[k])` for `k ≥ 1` (on the state
just before `outer` advances), which all three overlap matrices ignore
because `from_sessions` skips equal ids. -/
def twoCombPairs (slice : List Nat) : List (Nat × Nat) :=
  (List.range slice.length).flatMap (fun outer =>
    if outer = 0 then []
    else (List.range (outer + 1)).map (fun inner =>
      (slice.getD inner 0, slice.getD outer 0)))

/-- `instructor_allocations[j].push(x)` (Rust panics when `j` is out of
bounds; `List.set` is then a no-op on every cell, and every reachable push
in this program is in bounds). -/
def listPush (ls : List (List Nat)) (j : Nat) (x : Nat) : List (List Nat) :=
  ls.set j (ls.getD j [] ++ [x])

/-- The `add_minmax_cost` closure of `Solution::evaluate`, including the
`actual as u8` truncation. -/
def add_minmax_cost (costs : CostCount) (actual min max : Nat)
    (below above : Constraint) : CostCount :=
  let actual := actual % 256
  let costs := if actual < min then costs.add_cost below (min - actual) else costs
  if max < actual then costs.add_cost above (actual - max) else costs

/-- One step of the overlap-tier chain of `Solution::evaluate` (evaluator.rs
lines 144-156): Sharp overlap counts DirectOverlap; otherwise an active
padded overlap counts PaddedOverlap; otherwise an active same-day overlap
counts SameDayOverlap; otherwise nothing. -/
def pairStep (problem : Problem) (costs : CostCount) (session_1 session_2 : Nat) : CostCount :=
  if problem.overlap_sharp.is_overlap session_1 session_2 then
    costs.add_cost_1 .directOverlap
  else if problem.cost_config.should_count .paddedOverlap &&
      problem.overlap_padded.is_overlap session_1 session_2 then
    costs.add_cost_1 .paddedOverlap
  else if problem.cost_config.should_count .sameDayOverlap &&
      problem.overlap_same_day.is_overlap session_1 session_2 then
    costs.add_cost_1 .sameDayOverlap
  else
    costs

/-- The first loop of `Solution::evaluate`: one step per
`(assignment, session)` pair of the zip, threading `(costs, allocations)`. -/
def evalPhase1Step (problem : Problem) (state : CostCount × List (List Nat))
    (p : Option Nat × Session) : CostCount × List (List Nat) :=
  let costs := state.1
  let allocations := state.2
  let assignment := p.1
  let session := p.2
  let state :=
    match assignment with
    | some instructor_id =>
        let availability :=
          problem.availabilities.get_availability session.session_id instructor_id
        let costs := costs.add_cost_1 (match availability with
          | .impossible => .assignedImpossible
          | .dislike => .assignedDislike
          | .possible => .assignedPossible
          | .preferred => .assignedPreferred)
        (costs, listPush allocations instructor_id session.session_id)
    | none => (costs.add_cost_1 .unassignedSession, allocations)
  let costs := state.1
  let costs :=
    if problem.cost_config.should_count .mismatchedInitialSolution then
      match problem.initial_solution.assignment.getD session.session_id none with
      | some old_assignment =>
          if some old_assignment ≠ assignment then
            costs.add_cost_1 .mismatchedInitialSolution
          else costs
      | none => costs
    else costs
  (costs, state.2)

/-- The per-instructor body of the second loop of `Solution::evaluate`. -/
def evalPhase2Step (problem : Problem) (costs : CostCount)
    (p : Instructor × List Nat) : CostCount :=
  let instructor := p.1
  let instructor_allocation := p.2
  let num_classes := instructor_allocation.length
  let num_tuts := (instructor_allocation.filter (fun session_id =>
    match problem.sessions[session_id]? with
    | some session => match session.typ with
        | .tutLab => true
        | .labAssist => false
    | none => false)).length
  let num_labs := num_classes - num_tuts
  let costs := add_minmax_cost costs num_tuts
    instructor.class_type_requirement.min_tutes
    instructor.class_type_requirement.max_tutes .belowMinTut .aboveMaxTut
  let costs := add_minmax_cost costs num_labs
    instructor.class_type_requirement.min_lab_assists
    instructor.class_type_requirement.max_lab_assists .belowMinLab .aboveMaxLab
  let costs := add_minmax_cost costs num_classes
    instructor.class_type_requirement.min_total_classes
    instructor.class_type_requirement.max_total_classes .belowMinClass .aboveMaxClass
  (twoCombPairs instructor_allocation).foldl
    (fun costs q => pairStep problem costs q.1 q.2) costs

/-- `Solution::evaluate`: a fresh all-empty buffer when none is supplied
(one inner vector per instructor), `clear()` on every inner vector of a
supplied buffer, then the two loops above. -/
def Solution.evaluate (self : Solution) (problem : Problem)
    (buffer : Option EvalBuffer) : CostCount × EvalBuffer :=
  let buffer := buffer.getD ⟨List.replicate problem.instructors.length []⟩
  let instructor_allocations :=
    buffer.instructor_allocations.map (fun _ => ([] : List Nat))
  let state := (self.assignment.zip problem.sessions).foldl
    (evalPhase1Step problem) (CostCount.new, instructor_allocations)
  let costs := (problem.instructors.zip state.2).foldl
    (evalPhase2Step problem) state.1
  (costs, ⟨state.2⟩)

/-- C6: one application of the overlap chain of `Solution::evaluate` (run
once per pair yielded by the two-combination walk over an instructor's
allocated sessions) increments at most one of the three overlap counters,
and exactly per the Sharp > Padded > SameDay precedence: DirectOverlap iff
the Sharp matrix reports overlap; PaddedOverlap iff not Sharp but padded
counting is active and the padded matrix reports overlap; SameDayOverlap
iff neither of those fired but same-day counting is active and the
same-day matrix reports overlap.  No other counter changes. -/
theorem C6_overlap_tiers_exclusive (problem : Problem) (costs : CostCount)
    (a b : Nat) (c : CostCount) (hc : c = pairStep problem costs a b) :
    (c.counts .directOverlap ≠ costs.counts .directOverlap ↔
      problem.overlap_sharp.is_overlap a b = true) ∧
    (c.counts .paddedOverlap ≠ costs.counts .paddedOverlap ↔
      (problem.overlap_sharp.is_overlap a b = false ∧
        problem.cost_config.should_count .paddedOverlap = true ∧
        problem.overlap_padded.is_overlap a b = true)) ∧
    (c.counts .sameDayOverlap ≠ costs.counts .sameDayOverlap ↔
      (problem.overlap_sharp.is_overlap a b = false ∧
        ¬(problem.cost_config.should_count .paddedOverlap = true ∧
          problem.overlap_padded.is_overlap a b = true) ∧
        problem.cost_config.should_count .sameDayOverlap = true ∧
        problem.overlap_same_day.is_overlap a b = true)) ∧
    (∀ k : Constraint, c.counts k = costs.counts k ∨ c.counts k = costs.counts k + 1) ∧
    ((c.counts .directOverlap - costs.counts .directOverlap) +
      (c.counts .paddedOverlap - costs.counts .paddedOverlap) +
      (c.counts .sameDayOverlap - costs.counts .sameDayOverlap) ≤ 1) := by
  subst hc
  unfold pairStep
  cases hsharp : problem.overlap_sharp.is_overlap a b with
  | true =>
      simp only [if_pos rfl, CostCount.add_cost_1, CostCount.add_cost]
      refine ⟨by simp, by simp [hsharp], by simp [hsharp], fun k => ?_, by simp⟩
      by_cases hk : k = Constraint.directOverlap <;> simp [hk]
  | false =>
      rw [if_neg (by simp [hsharp])]
      cases hpad : problem.cost_config.should_count .paddedOverlap &&
          problem.overlap_padded.is_overlap a b with
      | true =>
          rw [if_pos (by simp [hpad]), Bool.and_eq_true] at *
          simp only [CostCount.add_cost_1, CostCount.add_cost]
          refine ⟨by simp, by simp [hsharp, hpad], by simp [hpad], fun k => ?_, by simp⟩
          by_cases hk : k = Constraint.paddedOverlap <;> simp [hk]
      | false =>
          rw [if_neg (by simp [hpad])]
          have hpad' : ¬(problem.cost_config.should_count .paddedOverlap = true ∧
              problem.overlap_padded.is_overlap a b = true) := by
            rw [← Bool.and_eq_true]
            simp [hpad]
          cases hsame : problem.cost_config.should_count .sameDayOverlap &&
              problem.overlap_same_day.is_overlap a b with
          | true =>
              rw [if_pos (by simp [hsame]), Bool.and_eq_true] at *
              simp only [CostCount.add_cost_1, CostCount.add_cost]
              refine ⟨by simp, by simp [hpad'], by simp [hsharp, hpad', hsame], fun k => ?_,
                by simp⟩
              by_cases hk : k = Constraint.sameDayOverlap <;> simp [hk]
          | false =>
              rw [if_neg (by simp [hsame])]
              refine ⟨by simp, by simp [hpad'], ?_, fun k => Or.inl rfl, by simp⟩
              constructor
              · intro hcon
                exact absurd rfl hcon
              · rintro ⟨-, -, hsc, hov⟩
                simp [hsc, hov] at hsame

theorem getD_take_of_lt {α : Type} (l : List α) (j n : Nat) (d : α) (hj : j < n) :
    (l.take n).getD j d = l.getD j d := by
  rw [List.getD_eq_getElem?_getD, List.getD_eq_getElem?_getD, List.getElem?_take_of_lt hj]

theorem zip_take_length {α β : Type} (l₁ : List α) :
    ∀ l₂ : List β, l₁.zip l₂ = l₁.zip (l₂.take l₁.length) := by
  induction l₁ with
  | nil => intro l₂; rfl
  | cons x xs ih =>
      intro l₂
      cases l₂ with
      | nil => rfl
      | cons y ys =>
          rw [List.length_cons, List.take_succ_cons, List.zip_cons_cons,
            List.zip_cons_cons, ← ih ys]

theorem take_map_const (n : Nat) :
    ∀ l : List (List Nat), n ≤ l.length →
      (l.map (fun _ => ([] : List Nat))).take n = List.replicate n [] := by
  induction n with
  | zero => intro l _; rfl
  | succ n ih =>
      intro l hl
      cases l with
      | nil => simp at hl
      | cons x xs =>
          rw [List.map_cons, List.take_succ_cons, List.replicate_succ,
            ih xs (by simpa using hl)]

theorem phase1Step_fst (problem : Problem) (costs : CostCount)
    (a a' : List (List Nat)) (p : Option Nat × Session) :
    (evalPhase1Step problem (costs, a) p).1 = (evalPhase1Step problem (costs, a') p).1 := by
  rcases p with ⟨assignment, session⟩
  cases assignment <;> rfl

theorem phase1Step_snd_take (problem : Problem) (n : Nat) (costs costs' : CostCount)
    (a a' : List (List Nat)) (p : Option Nat × Session) (h : a.take n = a'.take n) :
    (evalPhase1Step problem (costs, a) p).2.take n =
      (evalPhase1Step problem (costs', a') p).2.take n := by
  rcases p with ⟨assignment, session⟩
  cases assignment with
  | none => exact h
  | some j =>
      show (listPush a j session.session_id).take n =
        (listPush a' j session.session_id).take n
      unfold listPush
      rw [List.set_take, List.set_take, h]
      by_cases hj : j < n
      · rw [show a.getD j [] = a'.getD j [] from by
          rw [← getD_take_of_lt a j n [] hj, ← getD_take_of_lt a' j n [] hj, h]]
      · rw [List.set_eq_of_length_le, List.set_eq_of_length_le] <;>
          exact le_trans (List.length_take_le n _) (le_of_not_lt hj)

theorem phase1_fold_congr (problem : Problem) (n : Nat)
    (l : List (Option Nat × Session)) :
    ∀ s s' : CostCount × List (List Nat), s.1 = s'.1 → s.2.take n = s'.2.take n →
      (l.foldl (evalPhase1Step problem) s).1 = (l.foldl (evalPhase1Step problem) s').1 ∧
      (l.foldl (evalPhase1Step problem) s).2.take n =
        (l.foldl (evalPhase1Step problem) s').2.take n := by
  induction l with
  | nil => exact fun s s' h1 h2 => ⟨h1, h2⟩
  | cons p l ih =>
      rintro ⟨costs, a⟩ ⟨costs', a'⟩ h1 h2
      simp only at h1
      subst h1
      rw [List.foldl_cons, List.foldl_cons]
      exact ih _ _ (phase1Step_fst problem costs a a' p)
        (phase1Step_snd_take problem n costs costs a a' p h2)

/-- C9 (amended): `evaluate` returns the same `CostCount` for any two
scratch buffers that have at least one inner vector per instructor of the
problem — in particular for `none` (a fresh buffer), and for any buffer
recycled from evaluating any solution of the same problem, which always
has exactly `instructors.len()` inner vectors.  (A buffer with fewer inner
vectors than instructors is not interchangeable: see
`C9_short_buffer_changes_result`.) -/
theorem C9_evaluate_buffer_independent (problem : Problem) (self : Solution)
    (b1 b2 : Option EvalBuffer)
    (h1 : ∀ b, b1 = some b →
      problem.instructors.length ≤ b.instructor_allocations.length)
    (h2 : ∀ b, b2 = some b →
      problem.instructors.length ≤ b.instructor_allocations.length) :
    (self.evaluate problem b1).1 = (self.evaluate problem b2).1 := by
  unfold Solution.evaluate
  simp only
  have hcleared : ∀ b : Option EvalBuffer,
      (∀ bb, b = some bb →
        problem.instructors.length ≤ bb.instructor_allocations.length) →
      ((b.getD ⟨List.replicate problem.instructors.length []⟩).instructor_allocations.map
          (fun _ => ([] : List Nat))).take problem.instructors.length =
        List.replicate problem.instructors.length [] := by
    intro b hb
    cases b with
    | none =>
        rw [Option.getD_none]
        exact take_map_const _ _ (by rw [List.length_replicate])
    | some bb =>
        rw [Option.getD_some]
        exact take_map_const _ _ (hb bb rfl)
  have hfold := phase1_fold_congr problem problem.instructors.length
    (self.assignment.zip problem.sessions)
    (CostCount.new,
      ((b1.getD ⟨List.replicate problem.instructors.length []⟩).instructor_allocations.map
        (fun _ => ([] : List Nat))))
    (CostCount.new,
      ((b2.getD ⟨List.replicate problem.instructors.length []⟩).instructor_allocations.map
        (fun _ => ([] : List Nat))))
    rfl ((hcleared b1 h1).trans (hcleared b2 h2).symm)
  rw [zip_take_length problem.instructors
      ((self.assignment.zip problem.sessions).foldl (evalPhase1Step problem) _).2,
    zip_take_length problem.instructors
      ((self.assignment.zip problem.sessions).foldl (evalPhase1Step problem) _).2,
    hfold.1, hfold.2]

/-- The 0-session, 1-instructor problem of the C9 counterexample; the
single instructor requires at least one class in total. -/
def cexNeedyInstructor : Instructor :=
  { instructor_id := 0, name := "Bob", zid := "z7654321"
    class_type_requirement :=
      { min_tutes := 0, max_tutes := 0, min_lab_assists := 0, max_lab_assists := 0
        min_total_classes := 1, max_total_classes := 2 }
    seniority := none }

def cexProblem0 : Problem :=
  { sessions := []
    instructors := [cexNeedyInstructor]
    availabilities := ⟨1, []⟩
    overlap_sharp := ⟨0, []⟩
    overlap_padded := ⟨0, []⟩
    overlap_same_day := ⟨0, []⟩
    cost_config := ⟨fun _ => .value 1⟩
    initial_solution := ⟨false, []⟩ }

/-- C9 as stated ("for any buffers b1 and b2") is false: on a 0-session,
1-instructor problem, evaluating with a recycled zero-vector buffer skips
the instructor loop entirely (the `instructors.iter().zip(allocations)`
zip is empty), losing the BelowMinClass count that a fresh buffer
produces. -/
theorem C9_short_buffer_changes_result :
    ((Solution.evaluate ⟨false, []⟩ cexProblem0 (some ⟨[]⟩)).1).counts .belowMinClass = 0 ∧
    ((Solution.evaluate ⟨false, []⟩ cexProblem0 none).1).counts .belowMinClass = 1 := by
  constructor <;> rfl

/-- Witness for the amended C9: a one-vector buffer and a fresh buffer give
the same `CostCount` on `cexProblem0`. -/
theorem C9_concrete_buffer_equal :
    (Solution.evaluate ⟨false, []⟩ cexProblem0 (some ⟨[[]]⟩)).1 =
      (Solution.evaluate ⟨false, []⟩ cexProblem0 none).1 :=
  C9_evaluate_buffer_independent cexProblem0 ⟨false, []⟩ (some ⟨[[]]⟩) none
    (fun b hb => by cases hb; exact Nat.le_refl 1)
    (fun b hb => by cases hb)

def cexProblem : Problem :=
  { sessions := [cexSessionA, cexSessionB]
    instructors := [cexInstructor]
    availabilities := ⟨1, [.preferred, .preferred]⟩
    overlap_sharp := cexSharpMatrix
    overlap_padded := OverlapMatrix.from_sessions [cexSessionA, cexSessionB] .withPadding
    overlap_same_day := OverlapMatrix.from_sessions [cexSessionA, cexSessionB] .sameDay
    cost_config := ⟨fun _ => .value 1⟩
    initial_solution := ⟨false, [none, none]⟩ }

/-- Witness for C6 on a concrete pair with a Sharp overlap: the
DirectOverlap counter is the one that moves. -/
theorem C6_concrete_direct_tier :
    (pairStep cexProblem CostCount.new 0 1).counts .directOverlap ≠
      CostCount.new.counts .directOverlap ↔
    cexProblem.overlap_sharp.is_overlap 0 1 = true :=
  (C6_overlap_tiers_exclusive cexProblem CostCount.new 0 1
    (pairStep cexProblem CostCount.new 0 1) rfl).1

/-- The pseudo-random generator, abstracted to an arbitrary stream of
draws: `draw n` models fastrand's bounded draws (`u8(0..8)`,
`usize(0..len)`), returning a value `< n` and advancing the state.
Quantifying over all streams covers every possible generator behaviour.
(Rust panics on an empty range; the concrete inputs below keep `n > 0`.) -/
structure Rng where
  stream : Nat → Nat
  pos : Nat

def Rng.draw (rng : Rng) (n : Nat) : Nat × Rng :=
  (rng.stream rng.pos % n, { rng with pos := rng.pos + 1 })

/-- The `rand_instructor_for_session` closure of `Mutation::make_random`:
up to `k` draws of an instructor index, returning the first whose
availability for the session is not Impossible (Rust runs it with
`k = 16`). -/
def rand_instructor_for_session (problem : Problem) (session_id : Nat) :
    Nat → Rng → Option Nat × Rng
  | 0, rng => (none, rng)
  | k + 1, rng =>
      let (instructor_id, rng) := rng.draw problem.instructors.length
      if problem.availabilities.get_availability session_id instructor_id ≠
          Availability.impossible then
        (some instructor_id, rng)
      else
        rand_instructor_for_session problem session_id k rng

/-- `Mutation::make_random`.  The Rust recursion into the `Mult` branch is
unbounded (each level fires with probability 1/8); `fuel` bounds the
recursion depth in the embedding and every finite Rust run is reproduced
with a large enough fuel.  Fuel exhaustion returns "no mutation", which is
sound for every property below about returned mutations. -/
def Mutation.make_random (fuel : Nat) (problem : Problem) (solution : Solution)
    (rng : Rng) : Option Mutation × Rng :=
  match fuel with
  | 0 => (none, rng)
  | fuel + 1 =>
      let (d, rng) := rng.draw 8
      if d = 3 then
        match Mutation.make_random fuel problem solution rng with
        | (none, rng) => (none, rng)
        | (some a, rng) =>
            match Mutation.make_random fuel problem solution rng with
            | (none, rng) => (none, rng)
            | (some b, rng) => (some (.mult a b), rng)
      else
        let (session_index, rng) := rng.draw problem.sessions.length
        match solution.assignment.getD session_index none with
        | some old_instructor =>
            let (decision, rng) := rng.draw 8
            if decision = 1 then
              (some (.remove session_index old_instructor), rng)
            else if decision = 2 then
              let (other_session, rng) := rng.draw problem.sessions.length
              if other_session = session_index then
                (none, rng)
              else
                match solution.assignment.getD other_session none with
                | none => (none, rng)
                | some other_instructor =>
                    (some (.mult (.swap session_index old_instructor other_instructor)
                      (.swap other_session other_instructor old_instructor)), rng)
            else
              match rand_instructor_for_session problem session_index 16 rng with
              | (none, rng) => (none, rng)
              | (some new_instructor, rng) =>
                  (some (.swap session_index old_instructor new_instructor), rng)
        | none =>
            match rand_instructor_for_session problem session_index 16 rng with
            | (none, rng) => (none, rng)
            | (some instructor_id, rng) =>
                (some (.add session_index instructor_id), rng)

/-- Every `Add` occurring anywhere inside the mutation names an instructor
that is not Impossible for the added session. -/
def Mutation.adds_not_impossible (problem : Problem) : Mutation → Bool
  | .mult a b => a.adds_not_impossible problem && b.adds_not_impossible problem
  | .add session instructor =>
      problem.availabilities.get_availability session instructor ≠ Availability.impossible
  | .remove _ _ => true
  | .swap _ _ _ => true

theorem rand_instructor_some_not_impossible (problem : Problem) (session_id : Nat) :
    ∀ (k : Nat) (rng : Rng) (i : Nat),
      (rand_instructor_for_session problem session_id k rng).1 = some i →
      problem.availabilities.get_availability session_id i ≠ Availability.impossible := by
  intro k
  induction k with
  | zero => intro rng i h; simp [rand_instructor_for_session] at h
  | succ k ih =>
      intro rng i h
      simp only [rand_instructor_for_session, Rng.draw] at h
      split at h
      · rename_i hc
        rw [Option.some_inj] at h
        exact h ▸ hc
      · exact ih _ i h

theorem rand_instructor_all_impossible (problem : Problem) (session_id : Nat) :
    ∀ (k : Nat) (rng : Rng),
      (∀ j < k, problem.availabilities.get_availability session_id
        (rng.stream (rng.pos + j) % problem.instructors.length) = Availability.impossible) →
      (rand_instructor_for_session problem session_id k rng).1 = none := by
  intro k
  induction k with
  | zero => intro rng _; rfl
  | succ k ih =>
      intro rng h
      simp only [rand_instructor_for_session, Rng.draw]
      rw [if_neg]
      · apply ih
        intro j hj
        have hh := h (j + 1) (by omega)
        rw [show rng.pos + (j + 1) = rng.pos + 1 + j from by omega] at hh
        exact hh
      · simp only [ne_eq, not_not]
        simpa using h 0 (by omega)

theorem make_random_adds_ok (problem : Problem) (solution : Solution) :
    ∀ (fuel : Nat) (rng : Rng) (m : Mutation),
      (Mutation.make_random fuel problem solution rng).1 = some m →
      m.adds_not_impossible problem = true := by
  intro fuel
  induction fuel with
  | zero => intro rng m h; simp [Mutation.make_random] at h
  | succ fuel ih =>
      intro rng m h
      simp only [Mutation.make_random, Rng.draw] at h
      by_cases hd : rng.stream rng.pos % 8 = 3
      · rw [if_pos hd] at h
        cases hrec1 : Mutation.make_random fuel problem solution
            { stream := rng.stream, pos := rng.pos + 1 } with
        | mk o1 rng1 =>
            rw [hrec1] at h
            cases o1 with
            | none => simp at h
            | some a =>
                simp only [] at h
                cases hrec2 : Mutation.make_random fuel problem solution rng1 with
                | mk o2 rng2 =>
                    rw [hrec2] at h
                    cases o2 with
                    | none => simp at h
                    | some b =>
                        simp only [] at h
                        rw [Option.some_inj] at h
                        subst h
                        rw [Mutation.adds_not_impossible, Bool.and_eq_true]
                        exact ⟨ih _ a (by rw [hrec1]), ih _ b (by rw [hrec2])⟩
      · rw [if_neg hd] at h
        cases hcell : solution.assignment.getD
            (rng.stream (rng.pos + 1) % problem.sessions.length) none with
        | some old_instructor =>
            rw [hcell] at h
            simp only [] at h
            by_cases hdec : rng.stream (rng.pos + 1 + 1) % 8 = 1
            · rw [if_pos hdec] at h
              rw [Option.some_inj] at h
              subst h
              rfl
            · rw [if_neg hdec] at h
              by_cases hdec2 : rng.stream (rng.pos + 1 + 1) % 8 = 2
              · rw [if_pos hdec2] at h
                by_cases hother : rng.stream (rng.pos + 1 + 1 + 1) %
                    problem.sessions.length =
                    rng.stream (rng.pos + 1) % problem.sessions.length
                · rw [if_pos hother] at h
                  simp at h
                · rw [if_neg hother] at h
                  cases hcell2 : solution.assignment.getD
                      (rng.stream (rng.pos + 1 + 1 + 1) % problem.sessions.length)
                      none with
                  | none => rw [hcell2] at h; simp at h
                  | some other_instructor =>
                      rw [hcell2] at h
                      simp only [] at h
                      rw [Option.some_inj] at h
                      subst h
                      rfl
              · rw [if_neg hdec2] at h
                cases hri : rand_instructor_for_session problem
                    (rng.stream (rng.pos + 1) % problem.sessions.length) 16
                    { stream := rng.stream, pos := rng.pos + 1 + 1 + 1 } with
                | mk o r =>
                    rw [hri] at h
                    cases o with
                    | none => simp at h
                    | some new_instructor =>
                        simp only [] at h
                        rw [Option.some_inj] at h
                        subst h
                        rfl
        | none =>
            rw [hcell] at h
            simp only [] at h
            cases hri : rand_instructor_for_session problem
                (rng.stream (rng.pos + 1) % problem.sessions.length) 16
                { stream := rng.stream, pos := rng.pos + 1 + 1 } with
            | mk o r =>
                rw [hri] at h
                cases o with
                | none => simp at h
                | some instructor_id =>
                    simp only [] at h
                    rw [Option.some_inj] at h
                    subst h
                    rw [Mutation.adds_not_impossible]
                    simp only [ne_eq, decide_eq_true_eq]
                    exact rand_instructor_some_not_impossible problem _ 16 _ _
                      (by rw [hri])

theorem make_random_unassigned_all_impossible (problem : Problem) (solution : Solution)
    (fuel : Nat) (rng : Rng)
    (hd : rng.stream rng.pos % 8 ≠ 3)
    (hcell : solution.assignment.getD
      (rng.stream (rng.pos + 1) % problem.sessions.length) none = none)
    (hall : ∀ k < 16, problem.availabilities.get_availability
      (rng.stream (rng.pos + 1) % problem.sessions.length)
      (rng.stream (rng.pos + 2 + k) % problem.instructors.length) =
        Availability.impossible) :
    (Mutation.make_random (fuel + 1) problem solution rng).1 = none := by
  simp only [Mutation.make_random, Rng.draw]
  rw [if_neg hd, hcell]
  simp only []
  cases hri : rand_instructor_for_session problem
      (rng.stream (rng.pos + 1) % problem.sessions.length) 16
      { stream := rng.stream, pos := rng.pos + 1 + 1 } with
  | mk o r =>
      have hnone : o = none := by
        have := rand_instructor_all_impossible problem
          (rng.stream (rng.pos + 1) % problem.sessions.length) 16
          { stream := rng.stream, pos := rng.pos + 1 + 1 }
          (fun j hj => by
            have hh := hall j hj
            rw [show rng.pos + 2 + j = rng.pos + 1 + 1 + j from by omega] at hh
            exact hh)
        rw [hri] at this
        exact this
      subst hnone
      rfl

/-- C8: (first conjunct) every `Add(s, j)` occurring anywhere inside a
mutation returned by `make_random` names an instructor `j` that is not
Impossible for `s`; (second conjunct) when the first draw does not pick the
`Mult` branch, the drawn session is unassigned, and all 16 retry draws land
on Impossible instructors, `make_random` returns no mutation. -/
theorem C8_make_random_add_guard :
    (∀ (fuel : Nat) (problem : Problem) (solution : Solution) (rng : Rng) (m : Mutation),
      (Mutation.make_random fuel problem solution rng).1 = some m →
      m.adds_not_impossible problem = true) ∧
    (∀ (fuel : Nat) (problem : Problem) (solution : Solution) (rng : Rng),
      rng.stream rng.pos % 8 ≠ 3 →
      solution.assignment.getD
        (rng.stream (rng.pos + 1) % problem.sessions.length) none = none →
      (∀ k < 16, problem.availabilities.get_availability
        (rng.stream (rng.pos + 1) % problem.sessions.length)
        (rng.stream (rng.pos + 2 + k) % problem.instructors.length) =
          Availability.impossible) →
      (Mutation.make_random (fuel + 1) problem solution rng).1 = none) :=
  ⟨fun fuel problem solution => make_random_adds_ok problem solution fuel,
   fun fuel problem solution => make_random_unassigned_all_impossible problem solution fuel⟩

/-- The 1-session, 1-instructor, all-Impossible problem of the C8
witness. -/
def cexImpossibleProblem : Problem :=
  { sessions := [cexSessionA]
    instructors := [cexInstructor]
    availabilities := ⟨1, [.impossible]⟩
    overlap_sharp := ⟨1, []⟩
    overlap_padded := ⟨1, []⟩
    overlap_same_day := ⟨1, []⟩
    cost_config := ⟨fun _ => .value 1⟩
    initial_solution := ⟨false, [none]⟩ }

/-- Witness for C8: with an all-ones stream a `Remove` is returned on an
assigned solution (its Adds, vacuously, are all fine), and with an
all-zeroes stream on the unassigned solution every retry hits the
Impossible instructor and no mutation is produced. -/
theorem C8_concrete_runs :
    (Mutation.remove 0 5).adds_not_impossible cexImpossibleProblem = true ∧
    (Mutation.make_random 1 cexImpossibleProblem ⟨false, [none]⟩ ⟨fun _ => 0, 0⟩).1 = none :=
  ⟨C8_make_random_add_guard.1 1 cexImpossibleProblem ⟨true, [some 5]⟩
      ⟨fun _ => 1, 0⟩ (Mutation.remove 0 5) (by decide),
   C8_make_random_add_guard.2 0 cexImpossibleProblem ⟨false, [none]⟩
      ⟨fun _ => 0, 0⟩ (by decide) (by decide) (by decide)⟩
